import Mathlib

/-!
Shallow embedding of the synthesis pipeline of the `azure-iam-research`
scripts (praetorian-inc/nebula):

* `scripts/synthesis/deduplicate.py` — `TechniqueDeduplicator`
  (`load_all_sources`, `compute_signature`, `deduplicate_techniques`,
  `merge_techniques`, `categorize_techniques`); and
* `scripts/synthesis/generate-markdown.py` — `MarkdownGenerator`
  (`ID_RANGES`, `assign_ids`).

Technique records are Python dicts; the fields the synthesis code reads or
writes are modelled as `Option`-valued fields of a `Record` structure, where
`none` models an absent key.  Python dicts used as accumulators (the
signature map, the by-category map, `ID_RANGES`, `SOURCE_AUTHORITY`) are
modelled as insertion-ordered association lists, matching the insertion-order
iteration semantics of Python dicts.
-/

/-- A `{name, authority}` citation appended by `merge_techniques`. -/
structure SourceCite where
  name : String
  authority : Nat
deriving DecidableEq

/-- A technique record (Python dict).  `none` models an absent key. -/
structure Record where
  name : Option String := none
  source : Option String := none
  description : Option String := none
  category : Option String := none
  subcategory : Option String := none
  sources : Option (List SourceCite) := none
  source_count : Option Nat := none
  id : Option String := none
deriving DecidableEq

/-- First-match association-list lookup; models Python dict lookup (keys of
the modelled dicts are unique). -/
def alookup {α β : Type} [DecidableEq α] (k : α) : List (α × β) → Option β
  | [] => none
  | (a, b) :: l => if a = k then some b else alookup k l

/-- `TechniqueDeduplicator.SOURCE_AUTHORITY` (deduplicate.py, lines 29-33). -/
def SOURCE_AUTHORITY : List (String × Nat) :=
  [("Microsoft Official Documentation", 100),
   ("MITRE ATT&CK Framework", 90),
   ("Security Research Aggregation", 50)]

/-- `self.SOURCE_AUTHORITY.get(s, 0)`: authority of a source name, unknown
sources ranking 0. -/
def authority_of (s : String) : Nat := (alookup s SOURCE_AUTHORITY).getD 0

/-- The sort/selection key used by `merge_techniques`:
`self.SOURCE_AUTHORITY.get(t.get('source', ''), 0)`. -/
def authOf (t : Record) : Nat := authority_of (t.source.getD "")

/-- `tech.get('source', 'Unknown')` as used when collecting citations. -/
def sourceName (t : Record) : String := t.source.getD "Unknown"

/-- Python's `str.lower()` over the underlying characters (character-wise
case folding, as `Char.toLower`). -/
def lowerChars (l : List Char) : List Char := l.map Char.toLower

/-- Python's `str.strip()`: drop leading and trailing whitespace. -/
def stripChars (l : List Char) : List Char :=
  ((l.dropWhile Char.isWhitespace).reverse.dropWhile Char.isWhitespace).reverse

/-- `TechniqueDeduplicator.compute_signature` (deduplicate.py, lines 82-97):
`technique.get('name', '').lower().strip()`. -/
def compute_signature (t : Record) : String :=
  ⟨stripChars (lowerChars (t.name.getD "").data)⟩

/-- One step of building Python's insertion-ordered `signature_map`:
append `x` to the group of key `k`, or start a new group at the end. -/
def insGroup {α : Type} (k : String) (x : α) :
    List (String × List α) → List (String × List α)
  | [] => [(k, [x])]
  | (s, g) :: rest =>
      if s = k then (s, g ++ [x]) :: rest else (s, g) :: insGroup k x rest

/-- Build the insertion-ordered map from keys to groups (the
`signature_map` / `by_category` loops of the Python code). -/
def groupByKey {α : Type} (key : α → String) (xs : List α) :
    List (String × List α) :=
  xs.foldl (fun m x => insGroup (key x) x m) []

/-- The `max(techniques, key=...)` call of `merge_techniques`: Python's `max`
returns the first element attaining the maximal key. -/
def selectPrimary (t : Record) (ts : List Record) : Record :=
  ts.foldl (fun best x => if authOf x > authOf best then x else best) t

/-- One iteration of the `all_sources` loop of `merge_techniques`. -/
def collectStep (acc : List SourceCite) (t : Record) : List SourceCite :=
  let s := sourceName t
  if acc.any (fun x => x.name == s) then acc
  else acc ++ [⟨s, authority_of s⟩]

/-- The `all_sources` list collected by `merge_techniques` (deduplicate.py,
lines 150-157): one `{name, authority}` per distinct source name, in first
appearance order. -/
def collectSources (g : List Record) : List SourceCite :=
  g.foldl collectStep []

/-- Insert into a descending-by-authority list, after strictly greater
elements and before equal-or-smaller ones (so that the fold below models
Python's stable `sorted(..., key=authority, reverse=True)`). -/
def insertSourceDesc (s : SourceCite) : List SourceCite → List SourceCite
  | [] => [s]
  | t :: ts =>
      if s.authority < t.authority then t :: insertSourceDesc s ts
      else s :: t :: ts

/-- `sorted(all_sources, key=lambda s: s['authority'], reverse=True)`. -/
def sortSourcesDesc (l : List SourceCite) : List SourceCite :=
  l.foldr insertSourceDesc []

/-- `TechniqueDeduplicator.merge_techniques` (deduplicate.py, lines 133-162).
Python's `max` raises on an empty sequence; the `[]` case is unreachable
because signature groups are nonempty, and returns the empty record. -/
def merge_techniques : List Record → Record
  | [] => {}
  | t :: ts =>
      let primary := selectPrimary t ts
      let all_sources := collectSources (t :: ts)
      { primary with
          sources := some (sortSourcesDesc all_sources),
          source_count := some all_sources.length }

/-- The per-group branch of `deduplicate_techniques`: a singleton group is
passed through unchanged, a larger group is merged. -/
def select_or_merge : List Record → Record
  | [r] => r
  | g => merge_techniques g

/-- `TechniqueDeduplicator.deduplicate_techniques` (deduplicate.py,
lines 99-131): group by signature in first-seen order, then pass singleton
groups through and merge the rest. -/
def deduplicate_techniques (ts : List Record) : List Record :=
  (groupByKey compute_signature ts).map (fun p => select_or_merge p.2)

/-- `TechniqueDeduplicator.categorize_techniques` (deduplicate.py,
lines 164-190): default a missing `category` to `"unknown"` and a missing
`subcategory` to `"general"`. -/
def categorize_techniques (ts : List Record) : List Record :=
  ts.map (fun t =>
    { t with
        category := some (t.category.getD "unknown"),
        subcategory := some (t.subcategory.getD "general") })

/-- State of one raw-data file as `load_all_sources` sees it: absent on
disk, present but unparseable JSON, or parsed with its `techniques` list
(`data.get('techniques', [])`). -/
inductive FileState : Type
  | absent : FileState
  | malformed : FileState
  | parsed : List Record → FileState
deriving DecidableEq

/-- The raw-data directory read by `load_all_sources`: the three collector
output files it looks for. -/
structure RawDataDir where
  ms : FileState
  research : FileState
  mitre : FileState
deriving DecidableEq

/-- `tech['source'] = src` applied to every loaded technique. -/
def stampSource (src : String) (ts : List Record) : List Record :=
  ts.map (fun t => { t with source := some src })

/-- Loading one collector file inside `load_all_sources`: a missing file is
skipped silently (contributes `[]`), malformed JSON makes `json.load` raise
(modelled as `Except.error`), a parsed file contributes its techniques with
`source` stamped. -/
def loadFile (fs : FileState) (src : String) : Except Unit (List Record) :=
  match fs with
  | .absent => .ok []
  | .malformed => .error ()
  | .parsed ts => .ok (stampSource src ts)

/-- `TechniqueDeduplicator.load_all_sources` (deduplicate.py, lines 40-80):
the three files are read in order with no exception handler, so the first
`json.load` failure propagates out of the whole function. -/
def load_all_sources (d : RawDataDir) : Except Unit (List Record) :=
  match loadFile d.ms "Microsoft Official Documentation" with
  | .error e => .error e
  | .ok a =>
    match loadFile d.research "Security Research Aggregation" with
    | .error e => .error e
    | .ok b =>
      match loadFile d.mitre "MITRE ATT&CK Framework" with
      | .error e => .error e
      | .ok c => .ok (a ++ b ++ c)

/-- `MarkdownGenerator.ID_RANGES` (generate-markdown.py, lines 30-35). -/
def ID_RANGES : List (String × Nat × Nat) :=
  [("directory-roles", (1, 99)),
   ("graph-permissions", (100, 199)),
   ("rbac", (200, 299)),
   ("cross-domain", (300, 399))]

/-- `self.ID_RANGES[category]` / the `category not in self.ID_RANGES` test. -/
def lookupRange (c : String) : Option (Nat × Nat) := alookup c ID_RANGES

/-- Decimal digits of `n`, most significant first, with structural fuel
(`fuel` bounds the number of digits; `n < 10 ^ fuel` suffices). -/
def decChars : Nat → Nat → List Char
  | 0, _ => []
  | fuel + 1, n =>
      if n < 10 then [Nat.digitChar n]
      else decChars fuel (n / 10) ++ [Nat.digitChar (n % 10)]

/-- Decimal rendering of a natural number. -/
def decimal (n : Nat) : String := ⟨decChars (n + 1) n⟩

/-- Python's `f"{n:03d}"` for a natural number: zero-pad to width 3. -/
def pad3 (n : Nat) : String :=
  if n < 10 then "00" ++ decimal n
  else if n < 100 then "0" ++ decimal n
  else decimal n

/-- The key of the `by_category` grouping of `assign_ids`:
`tech.get('category', 'unknown')` of an (index, record) pair.  Records are
paired with their position in the input list to model that Python groups
aliases of the very dicts of the input list. -/
def catKey (p : Nat × Record) : String := p.2.category.getD "unknown"

/-- The input list paired with positions (Python's aliased dicts, identified
by their index in `techniques`). -/
def zipIndexed (ts : List Record) : List (Nat × Record) :=
  (List.range ts.length).zip ts

/-- The `by_category` map of `assign_ids` (generate-markdown.py,
lines 64-70), in insertion order. -/
def by_category (ts : List Record) : List (String × List (Nat × Record)) :=
  groupByKey catKey (zipIndexed ts)

/-- Which id each input position receives: for each category group whose
category is in `ID_RANGES`, its members in accumulation order get
`TECH-{start_id + k:03d}`; other groups are skipped. -/
def idTable (ts : List Record) : List (Nat × String) :=
  (by_category ts).flatMap (fun p =>
    match lookupRange p.1 with
    | none => []
    | some (start_id, _) =>
        (p.2.map Prod.fst).zip
          ((List.range p.2.length).map (fun k => "TECH-" ++ pad3 (start_id + k))))

/-- `MarkdownGenerator.assign_ids` (generate-markdown.py, lines 52-82): the
input list in its original order, with `tech['id']` set on every record whose
category has an ID range, and the remaining records untouched. -/
def assign_ids (ts : List Record) : List Record :=
  (zipIndexed ts).map (fun p =>
    match alookup p.1 (idTable ts) with
    | some s => { p.2 with id := some s }
    | none => p.2)

/-- The categories `assign_ids` warns about ("Unknown category: ...,
skipping ID assignment"), in `by_category` iteration order. -/
def assign_ids_warnings (ts : List Record) : List String :=
  (by_category ts).filterMap (fun p =>
    if (lookupRange p.1).isNone then some p.1 else none)

/-- First-seen order of a list of signatures: the order in which distinct
values first appear.  Used to state the determinism contract of
`deduplicate_techniques`. -/
def firstSeen : List String → List String
  | [] => []
  | a :: l => a :: firstSeen (l.filter (fun b => b != a))
termination_by l => l.length
decreasing_by
  simp only [List.length_cons]
  exact Nat.lt_succ_of_le (List.length_filter_le _ _)

/-! ### Association-list lookup lemmas -/

theorem alookup_mem {α β : Type} [DecidableEq α] {k : α} {v : β}
    {l : List (α × β)} (h : alookup k l = some v) : (k, v) ∈ l := by
  induction l with
  | nil => simp [alookup] at h
  | cons p l ih =>
    obtain ⟨a, b⟩ := p
    by_cases hak : a = k
    · subst hak
      simp [alookup] at h
      simp [h]
    · simp [alookup, hak] at h
      exact List.mem_cons_of_mem _ (ih h)

theorem alookup_of_mem_nodup {α β : Type} [DecidableEq α] {k : α} {v : β}
    {l : List (α × β)} (hnd : (l.map Prod.fst).Nodup) (hm : (k, v) ∈ l) :
    alookup k l = some v := by
  induction l with
  | nil => simp at hm
  | cons p l ih =>
    obtain ⟨a, b⟩ := p
    simp only [List.map_cons, List.nodup_cons] at hnd
    rcases List.mem_cons.mp hm with h | h
    · obtain ⟨rfl, rfl⟩ := Prod.mk.injEq .. ▸ h
      injection h with h1 h2
      simp [alookup]
    · have hak : a ≠ k := by
        rintro rfl
        exact hnd.1 (List.mem_map.mpr ⟨(a, v), h, rfl⟩)
      simp [alookup, hak]
      exact ih hnd.2 h

theorem alookup_eq_none {α β : Type} [DecidableEq α] {k : α}
    {l : List (α × β)} : alookup k l = none ↔ k ∉ l.map Prod.fst := by
  induction l with
  | nil => simp [alookup]
  | cons p l ih =>
    obtain ⟨a, b⟩ := p
    by_cases hak : a = k
    · subst hak
      simp [alookup]
    · simp [alookup, hak, ih, Ne.symm hak]

theorem alookup_isSome_of_mem_keys {α β : Type} [DecidableEq α] {k : α}
    {l : List (α × β)} (h : k ∈ l.map Prod.fst) : ∃ v, alookup k l = some v := by
  rcases ho : alookup k l with _ | v
  · exact absurd (alookup_eq_none.mp ho) (not_not_intro h)
  · exact ⟨v, rfl⟩

/-! ### firstSeen lemmas -/

theorem mem_firstSeen {b : String} : ∀ {l : List String}, b ∈ firstSeen l ↔ b ∈ l := by
  intro l
  induction l using firstSeen.induct with
  | case1 => simp [firstSeen]
  | case2 a l ih =>
    rw [firstSeen]
    by_cases hba : b = a
    · subst hba; simp
    · simp only [List.mem_cons, ih, List.mem_filter, bne_iff_ne, ne_eq, decide_eq_true_eq]
      constructor
      · rintro (rfl | ⟨h, _⟩)
        · exact Or.inl rfl
        · exact Or.inr h
      · rintro (rfl | h)
        · exact Or.inl rfl
        · exact Or.inr ⟨h, hba⟩

theorem nodup_firstSeen : ∀ (l : List String), (firstSeen l).Nodup := by
  intro l
  induction l using firstSeen.induct with
  | case1 => simp [firstSeen]
  | case2 a l ih =>
    rw [firstSeen]
    refine List.nodup_cons.mpr ⟨?_, ih⟩
    intro hmem
    have := mem_firstSeen.mp hmem
    simp [List.mem_filter] at this

theorem length_firstSeen_le : ∀ (l : List String), (firstSeen l).length ≤ l.length := by
  intro l
  induction l using firstSeen.induct with
  | case1 => simp [firstSeen]
  | case2 a l ih =>
    rw [firstSeen]
    simp only [List.length_cons]
    exact Nat.succ_le_succ (le_trans ih (List.length_filter_le _ _))

theorem firstSeen_eq_self_of_nodup : ∀ {l : List String}, l.Nodup → firstSeen l = l := by
  intro l
  induction l using firstSeen.induct with
  | case1 => intro _; rw [firstSeen]
  | case2 a l ih =>
    intro hnd
    rw [firstSeen]
    rcases List.nodup_cons.mp hnd with ⟨ha, hl⟩
    have hf : l.filter (fun b => b != a) = l := by
      apply List.filter_eq_self.mpr
      intro b hb
      simp only [bne_iff_ne, ne_eq, decide_eq_true_eq]
      rintro rfl
      exact ha hb
    rw [hf] at ih ⊢
    exact congrArg (a :: ·) (ih hl)

/-! ### Grouping lemmas -/

theorem insGroup_map_fst {α : Type} (k : String) (x : α)
    (m : List (String × List α)) :
    (insGroup k x m).map Prod.fst =
      if k ∈ m.map Prod.fst then m.map Prod.fst else m.map Prod.fst ++ [k] := by
  induction m with
  | nil => simp [insGroup]
  | cons p m ih =>
    obtain ⟨s, g⟩ := p
    by_cases hsk : s = k
    · subst hsk
      simp [insGroup]
    · simp only [insGroup, if_neg hsk, List.map_cons, ih, List.mem_cons,
        Ne.symm hsk, false_or]
      by_cases hk : k ∈ m.map Prod.fst <;> simp [hk]

theorem insGroup_of_not_mem {α : Type} {k : String} (x : α)
    {m : List (String × List α)} (h : k ∉ m.map Prod.fst) :
    insGroup k x m = m ++ [(k, [x])] := by
  induction m with
  | nil => rfl
  | cons p m ih =>
    obtain ⟨s, g⟩ := p
    simp only [List.map_cons, List.mem_cons] at h
    push_neg at h
    simp [insGroup, Ne.symm h.1, ih h.2]

theorem alookup_insGroup {α : Type} (k k' : String) (x : α)
    (m : List (String × List α)) :
    alookup k (insGroup k' x m) =
      if k = k' then some ((alookup k m).getD [] ++ [x]) else alookup k m := by
  induction m with
  | nil =>
    by_cases hkk : k = k'
    · subst hkk
      simp [insGroup, alookup]
    · simp [insGroup, alookup, hkk, Ne.symm hkk]
  | cons p m ih =>
    obtain ⟨s, g⟩ := p
    by_cases hsk' : s = k'
    · subst hsk'
      by_cases hks : s = k
      · subst hks
        simp [insGroup, alookup]
      · simp [insGroup, alookup, hks, Ne.symm hks]
    · by_cases hks : s = k
      · subst hks
        simp [insGroup, hsk', alookup, Ne.symm hsk']
      · simp [insGroup, hsk', alookup, hks, ih]

theorem alookup_foldl_insGroup {α : Type} (key : α → String) (k : String) :
    ∀ (xs : List α) (m : List (String × List α)),
    alookup k (xs.foldl (fun m x => insGroup (key x) x m) m) =
      match alookup k m with
      | some g => some (g ++ xs.filter (fun x => key x == k))
      | none =>
          match xs.filter (fun x => key x == k) with
          | [] => none
          | fl => some fl := by
  intro xs
  induction xs with
  | nil =>
    intro m
    rcases h : alookup k m with _ | g <;> simp [h]
  | cons x xs ih =>
    intro m
    simp only [List.foldl_cons]
    rw [ih (insGroup (key x) x m), alookup_insGroup]
    by_cases hkx : key x = k
    · have hb : (key x == k) = true := by simp [hkx]
      rw [if_pos hkx.symm]
      rcases h : alookup k m with _ | g <;> simp [h, List.filter_cons, hb]
    · have hb : (key x == k) = false := by simp [hkx]
      rw [if_neg (fun hh => hkx hh.symm)]
      simp only [List.filter_cons, hb, Bool.false_eq_true, if_false]

theorem alookup_groupByKey {α : Type} (key : α → String) (k : String)
    (xs : List α) :
    alookup k (groupByKey key xs) =
      match xs.filter (fun x => key x == k) with
      | [] => none
      | fl => some fl := by
  have h := alookup_foldl_insGroup key k xs []
  simpa [groupByKey, alookup] using h

theorem groupByKey_group_eq_filter {α : Type} {key : α → String} {k : String}
    {xs : List α} {g : List α} (h : alookup k (groupByKey key xs) = some g) :
    g = xs.filter (fun x => key x == k) ∧ g ≠ [] := by
  rw [alookup_groupByKey] at h
  rcases hf : xs.filter (fun x => key x == k) with _ | ⟨y, ys⟩
  · rw [hf] at h
    simp at h
  · rw [hf] at h
    injection h with h
    subst h
    exact ⟨rfl, by simp⟩

theorem map_fst_foldl_insGroup {α : Type} (key : α → String) :
    ∀ (xs : List α) (m : List (String × List α)),
    (xs.foldl (fun m x => insGroup (key x) x m) m).map Prod.fst =
      m.map Prod.fst ++
        firstSeen ((xs.map key).filter
          (fun s => decide (s ∉ m.map Prod.fst))) := by
  intro xs
  induction xs with
  | nil => intro m; simp [firstSeen]
  | cons x xs ih =>
    intro m
    simp only [List.foldl_cons, List.map_cons]
    rw [ih (insGroup (key x) x m), insGroup_map_fst]
    by_cases hk : key x ∈ m.map Prod.fst
    · rw [if_pos hk]
      simp only [List.filter_cons]
      have hd : (decide (key x ∉ m.map Prod.fst)) = false := by simp [hk]
      rw [hd]
      simp
    · rw [if_neg hk]
      simp only [List.filter_cons]
      have hd : (decide (key x ∉ m.map Prod.fst)) = true := by simp [hk]
      rw [hd]
      simp only [if_pos trivial]
      rw [firstSeen]
      have hpred : ∀ s ∈ (xs.map key),
          ((s != key x) && decide (s ∉ m.map Prod.fst)) =
            decide (s ∉ (m.map Prod.fst ++ [key x])) := by
        intro s _
        by_cases h1 : s ∈ m.map Prod.fst <;> by_cases h2 : s = key x <;>
          simp [h1, h2]
      rw [List.filter_filter, List.filter_congr hpred]
      simp [List.append_assoc]

theorem groupByKey_map_fst {α : Type} (key : α → String) (xs : List α) :
    (groupByKey key xs).map Prod.fst = firstSeen (xs.map key) := by
  have h := map_fst_foldl_insGroup key xs []
  simpa [groupByKey] using h

theorem groupByKey_keys_nodup {α : Type} (key : α → String) (xs : List α) :
    ((groupByKey key xs).map Prod.fst).Nodup := by
  rw [groupByKey_map_fst]
  exact nodup_firstSeen _

theorem foldl_insGroup_of_nodup {α : Type} (key : α → String) :
    ∀ (xs : List α) (m : List (String × List α)),
    (xs.map key).Nodup → (∀ x ∈ xs, key x ∉ m.map Prod.fst) →
    xs.foldl (fun m x => insGroup (key x) x m) m =
      m ++ xs.map (fun x => (key x, [x])) := by
  intro xs
  induction xs with
  | nil => intro m _ _; simp
  | cons x xs ih =>
    intro m hnd hdisj
    simp only [List.map_cons, List.nodup_cons] at hnd
    simp only [List.foldl_cons]
    rw [insGroup_of_not_mem x (hdisj x (List.mem_cons_self x xs))]
    rw [ih (m ++ [(key x, [x])]) hnd.2]
    · simp
    · intro y hy
      simp only [List.map_append, List.mem_append, List.map_cons]
      push_neg
      constructor
      · exact hdisj y (List.mem_cons_of_mem x hy)
      · simp only [List.map_nil, List.mem_singleton]
        intro hkey
        exact hnd.1 (hkey ▸ List.mem_map.mpr ⟨y, hy, rfl⟩)

theorem groupByKey_of_nodup {α : Type} (key : α → String) (xs : List α)
    (hnd : (xs.map key).Nodup) :
    groupByKey key xs = xs.map (fun x => (key x, [x])) := by
  have h := foldl_insGroup_of_nodup key xs [] hnd (by simp)
  simpa [groupByKey] using h

/-! ### Merge lemmas: primary selection, source collection, sorting -/

/-- The maximal authority over a group, as a fold (0 is the floor: unknown
sources rank 0). -/
def maxAuthority (g : List Record) : Nat :=
  (g.map authOf).foldl Nat.max 0

theorem le_foldl_max (l : List Nat) : ∀ a : Nat, a ≤ l.foldl Nat.max a := by
  induction l with
  | nil => intro a; simp
  | cons x l ih =>
    intro a
    simp only [List.foldl_cons]
    exact le_trans (Nat.le_max_left a x) (ih (Nat.max a x))

theorem mem_le_foldl_max {x : Nat} {l : List Nat} (h : x ∈ l) :
    ∀ a : Nat, x ≤ l.foldl Nat.max a := by
  induction l with
  | nil => simp at h
  | cons y l ih =>
    intro a
    rcases List.mem_cons.mp h with rfl | h'
    · exact le_trans (Nat.le_max_right a x) (le_foldl_max l (Nat.max a x))
    · exact ih h' (Nat.max a y)

theorem maxAuthority_cons (t : Record) (ts : List Record) :
    maxAuthority (t :: ts) = (ts.map authOf).foldl Nat.max (authOf t) := by
  simp [maxAuthority, Nat.zero_max]

theorem authOf_le_maxAuthority {x : Record} {g : List Record} (h : x ∈ g) :
    authOf x ≤ maxAuthority g :=
  mem_le_foldl_max (List.mem_map.mpr ⟨x, h, rfl⟩) 0

theorem find?_eq_selectPrimary :
    ∀ (ts : List Record) (t : Record),
    (t :: ts).find?
        (fun x => authOf x == (ts.map authOf).foldl Nat.max (authOf t)) =
      some (selectPrimary t ts) := by
  intro ts
  induction ts with
  | nil =>
    intro t
    simp [selectPrimary, List.find?_cons]
  | cons x ts ih =>
    intro t
    by_cases hxt : authOf x > authOf t
    · have hstep : selectPrimary t (x :: ts) = selectPrimary x ts := by
        simp [selectPrimary, if_pos hxt]
      have hmax : (List.map authOf (x :: ts)).foldl Nat.max (authOf t) =
          (ts.map authOf).foldl Nat.max (authOf x) := by
        simp only [List.map_cons, List.foldl_cons]
        congr 1
        exact Nat.max_eq_right (Nat.le_of_lt hxt)
      rw [hstep, hmax]
      have ht_lt : authOf t < (ts.map authOf).foldl Nat.max (authOf x) :=
        lt_of_lt_of_le hxt (le_foldl_max _ _)
      have hfalse : (authOf t == (ts.map authOf).foldl Nat.max (authOf x)) = false := by
        rw [beq_eq_false_iff_ne]
        exact Nat.ne_of_lt ht_lt
      simp only [List.find?_cons, hfalse]
      exact ih x
    · have hstep : selectPrimary t (x :: ts) = selectPrimary t ts := by
        simp [selectPrimary, if_neg hxt]
      have hmax : (List.map authOf (x :: ts)).foldl Nat.max (authOf t) =
          (ts.map authOf).foldl Nat.max (authOf t) := by
        simp only [List.map_cons, List.foldl_cons]
        congr 1
        exact Nat.max_eq_left (Nat.le_of_not_lt hxt)
      rw [hstep, hmax]
      have hih := ih t
      by_cases hteq : authOf t = (ts.map authOf).foldl Nat.max (authOf t)
      · have htrue : (authOf t == (ts.map authOf).foldl Nat.max (authOf t)) = true := by
          exact beq_iff_eq.mpr hteq
        simp only [List.find?_cons, htrue] at hih ⊢
        exact hih
      · have ht_lt : authOf t < (ts.map authOf).foldl Nat.max (authOf t) :=
          lt_of_le_of_ne (le_foldl_max _ _) hteq
        have hx_lt : authOf x < (ts.map authOf).foldl Nat.max (authOf t) :=
          lt_of_le_of_lt (Nat.le_of_not_lt hxt) ht_lt
        have hfalse1 : (authOf t == (ts.map authOf).foldl Nat.max (authOf t)) = false := by
          rw [beq_eq_false_iff_ne]
          exact hteq
        have hfalse2 : (authOf x == (ts.map authOf).foldl Nat.max (authOf t)) = false := by
          rw [beq_eq_false_iff_ne]
          exact Nat.ne_of_lt hx_lt
        simp only [List.find?_cons, hfalse1, hfalse2]
        simp only [List.find?_cons, hfalse1] at hih
        exact hih

theorem find?_maxAuthority_eq_selectPrimary (t : Record) (ts : List Record) :
    (t :: ts).find? (fun x => authOf x == maxAuthority (t :: ts)) =
      some (selectPrimary t ts) := by
  rw [maxAuthority_cons]
  exact find?_eq_selectPrimary ts t

theorem collect_auth_invariant :
    ∀ (g : List Record) (acc : List SourceCite),
    (∀ s ∈ acc, s.authority = authority_of s.name) →
    ∀ s ∈ g.foldl collectStep acc, s.authority = authority_of s.name := by
  intro g
  induction g with
  | nil => intro acc h; simpa using h
  | cons t g ih =>
    intro acc h
    simp only [List.foldl_cons]
    apply ih
    intro s hs
    simp only [collectStep] at hs
    by_cases hany : acc.any (fun x => x.name == sourceName t)
    · rw [if_pos hany] at hs
      exact h s hs
    · rw [if_neg hany] at hs
      rcases List.mem_append.mp hs with h' | h'
      · exact h s h'
      · rcases List.mem_singleton.mp h' with rfl
        rfl

theorem collect_nodup_names :
    ∀ (g : List Record) (acc : List SourceCite),
    (acc.map SourceCite.name).Nodup →
    ((g.foldl collectStep acc).map SourceCite.name).Nodup := by
  intro g
  induction g with
  | nil => intro acc h; simpa using h
  | cons t g ih =>
    intro acc h
    simp only [List.foldl_cons]
    apply ih
    simp only [collectStep]
    by_cases hany : acc.any (fun x => x.name == sourceName t)
    · rw [if_pos hany]; exact h
    · rw [if_neg hany]
      simp only [List.map_append, List.map_cons, List.map_nil]
      rw [List.nodup_append]
      refine ⟨h, List.nodup_singleton _, ?_⟩
      intro n hn hmem
      simp only [List.mem_singleton] at hmem
      subst hmem
      rcases List.mem_map.mp hn with ⟨x, hx, hxn⟩
      have hf : (acc.any fun x => x.name == sourceName t) = false := by
        simpa using hany
      have : x.name ≠ sourceName t := by
        have := List.any_eq_false.mp hf x hx
        simpa using this
      exact this hxn

theorem collect_mem_names :
    ∀ (g : List Record) (acc : List SourceCite) (n : String),
    (n ∈ (g.foldl collectStep acc).map SourceCite.name ↔
      n ∈ acc.map SourceCite.name ∨ n ∈ g.map sourceName) := by
  intro g
  induction g with
  | nil => intro acc n; simp
  | cons t g ih =>
    intro acc n
    simp only [List.foldl_cons, List.map_cons, List.mem_cons]
    rw [ih]
    simp only [collectStep]
    by_cases hany : acc.any (fun x => x.name == sourceName t)
    · rw [if_pos hany]
      have hmem : sourceName t ∈ acc.map SourceCite.name := by
        rcases List.any_eq_true.mp hany with ⟨x, hx, hxn⟩
        exact List.mem_map.mpr ⟨x, hx, by simpa using hxn⟩
      constructor
      · rintro (h | h)
        · exact Or.inl h
        · exact Or.inr (Or.inr h)
      · rintro (h | rfl | h)
        · exact Or.inl h
        · exact Or.inl hmem
        · exact Or.inr h
    · rw [if_neg hany]
      simp only [List.map_append, List.mem_append, List.map_cons, List.map_nil,
        List.mem_singleton]
      constructor
      · rintro ((h | rfl) | h)
        · exact Or.inl h
        · exact Or.inr (Or.inl rfl)
        · exact Or.inr (Or.inr h)
      · rintro (h | rfl | h)
        · exact Or.inl (Or.inl h)
        · exact Or.inl (Or.inr rfl)
        · exact Or.inr h

theorem insertSourceDesc_perm (s : SourceCite) (l : List SourceCite) :
    List.Perm (insertSourceDesc s l) (s :: l) := by
  induction l with
  | nil => simp [insertSourceDesc]
  | cons t l ih =>
    simp only [insertSourceDesc]
    by_cases h : s.authority < t.authority
    · rw [if_pos h]
      exact List.Perm.trans (List.Perm.cons t ih) (List.Perm.swap s t l)
    · rw [if_neg h]

theorem sortSourcesDesc_perm (l : List SourceCite) :
    List.Perm (sortSourcesDesc l) l := by
  induction l with
  | nil => simp [sortSourcesDesc]
  | cons s l ih =>
    simp only [sortSourcesDesc, List.foldr_cons]
    exact List.Perm.trans (insertSourceDesc_perm s _) (List.Perm.cons s ih)

theorem insertSourceDesc_sorted {s : SourceCite} {l : List SourceCite}
    (h : l.Pairwise (fun a b => b.authority ≤ a.authority)) :
    (insertSourceDesc s l).Pairwise (fun a b => b.authority ≤ a.authority) := by
  induction l with
  | nil => simp [insertSourceDesc]
  | cons t l ih =>
    rcases List.pairwise_cons.mp h with ⟨ht, hl⟩
    simp only [insertSourceDesc]
    by_cases hst : s.authority < t.authority
    · rw [if_pos hst]
      refine List.pairwise_cons.mpr ⟨?_, ih hl⟩
      intro y hy
      rcases List.mem_cons.mp ((insertSourceDesc_perm s l).mem_iff.mp hy) with rfl | hy'
      · exact le_of_lt hst
      · exact ht y hy'
    · rw [if_neg hst]
      refine List.pairwise_cons.mpr ⟨?_, h⟩
      intro y hy
      rcases List.mem_cons.mp hy with rfl | hy'
      · exact Nat.le_of_not_lt hst
      · exact le_trans (ht y hy') (Nat.le_of_not_lt hst)

theorem sortSourcesDesc_sorted (l : List SourceCite) :
    (sortSourcesDesc l).Pairwise (fun a b => b.authority ≤ a.authority) := by
  induction l with
  | nil => simp [sortSourcesDesc]
  | cons s l ih =>
    simp only [sortSourcesDesc, List.foldr_cons]
    exact insertSourceDesc_sorted ih

/-! ### Decimal rendering lemmas -/

/-- Value of a list of decimal digit characters, most significant first. -/
def digitsVal (l : List Char) : Nat :=
  l.foldl (fun acc c => acc * 10 + (c.toNat - 48)) 0

theorem digitsVal_append_singleton (l : List Char) (c : Char) :
    digitsVal (l ++ [c]) = digitsVal l * 10 + (c.toNat - 48) := by
  simp [digitsVal, List.foldl_append]

theorem digitChar_toNat {d : Nat} (h : d < 10) :
    (Nat.digitChar d).toNat = 48 + d := by
  interval_cases d <;> decide

theorem decChars_val : ∀ (fuel n : Nat), n < 10 ^ fuel →
    digitsVal (decChars fuel n) = n := by
  intro fuel
  induction fuel with
  | zero =>
    intro n h
    have hn : n = 0 := by
      simp only [pow_zero] at h
      omega
    subst hn
    rfl
  | succ fuel ih =>
    intro n h
    by_cases h10 : n < 10
    · rw [decChars, if_pos h10]
      simp [digitsVal, digitChar_toNat h10]
    · rw [decChars, if_neg h10]
      rw [digitsVal_append_singleton]
      have hdiv : n / 10 < 10 ^ fuel := by
        rw [Nat.div_lt_iff_lt_mul (by norm_num)]
        calc n < 10 ^ (fuel + 1) := h
          _ = 10 ^ fuel * 10 := by ring
      rw [ih _ hdiv, digitChar_toNat (Nat.mod_lt n (by norm_num))]
      omega

theorem digitsVal_decimal (n : Nat) : digitsVal (decimal n).data = n := by
  have h1 : n < 10 ^ (n + 1) :=
    lt_of_lt_of_le (Nat.lt_pow_self (by norm_num) n)
      (Nat.pow_le_pow_right (by norm_num) (Nat.le_succ n))
  exact decChars_val (n + 1) n h1

theorem digitsVal_cons_zero (l : List Char) :
    digitsVal (('0' : Char) :: l) = digitsVal l := rfl

theorem digitsVal_pad3 (n : Nat) : digitsVal (pad3 n).data = n := by
  unfold pad3
  by_cases h10 : n < 10
  · rw [if_pos h10, String.data_append]
    show digitsVal ('0' :: '0' :: (decimal n).data) = n
    rw [digitsVal_cons_zero, digitsVal_cons_zero, digitsVal_decimal]
  · rw [if_neg h10]
    by_cases h100 : n < 100
    · rw [if_pos h100, String.data_append]
      show digitsVal ('0' :: (decimal n).data) = n
      rw [digitsVal_cons_zero, digitsVal_decimal]
    · rw [if_neg h100]
      exact digitsVal_decimal n

theorem tech_id_inj {a b : Nat}
    (h : "TECH-" ++ pad3 a = "TECH-" ++ pad3 b) : a = b := by
  have hd := congrArg String.data h
  rw [String.data_append, String.data_append] at hd
  have hcancel := List.append_cancel_left hd
  have hval := congrArg digitsVal hcancel
  rwa [show digitsVal (pad3 a).data = a from digitsVal_pad3 a,
       show digitsVal (pad3 b).data = b from digitsVal_pad3 b] at hval

/-! ### zipIndexed and assign_ids machinery -/

theorem zipIndexed_length (ts : List Record) :
    (zipIndexed ts).length = ts.length := by
  simp [zipIndexed]

theorem mem_zipIndexed {ts : List Record} {i : Nat} {t : Record} :
    (i, t) ∈ zipIndexed ts ↔ ts[i]? = some t := by
  constructor
  · intro h
    obtain ⟨j, hj, hget⟩ := List.getElem_of_mem h
    have hjlen : j < ts.length := by rwa [zipIndexed_length] at hj
    have hjr : j < (List.range ts.length).length := by simpa using hjlen
    simp only [zipIndexed] at hget
    rw [List.getElem_zip, List.getElem_range] at hget
    injection hget with h1 h2
    subst h1
    rw [List.getElem?_eq_getElem hjlen]
    exact congrArg some h2
  · intro h
    have hilen : i < ts.length := by
      by_contra hc
      rw [List.getElem?_eq_none (Nat.le_of_not_lt hc)] at h
      simp at h
    have hir : i < (List.range ts.length).length := by simpa using hilen
    have hiz : i < (zipIndexed ts).length := by
      rw [zipIndexed_length]
      exact hilen
    have hv : ts[i] = t := by
      have hh := (List.getElem?_eq_getElem hilen).symm.trans h
      injection hh
    have hget : (zipIndexed ts)[i] = (i, t) := by
      simp only [zipIndexed]
      rw [List.getElem_zip, List.getElem_range, hv]
    rw [← hget]
    exact List.getElem_mem hiz

theorem assign_ids_getElem? {ts : List Record} {i : Nat} {t : Record}
    (h : ts[i]? = some t) :
    (assign_ids ts)[i]? =
      some (match alookup i (idTable ts) with
            | some s => { t with id := some s }
            | none => t) := by
  have hilen : i < ts.length := by
    by_contra hc
    rw [List.getElem?_eq_none (Nat.le_of_not_lt hc)] at h
    simp at h
  have hz : (zipIndexed ts)[i]? = some (i, t) := by
    simp only [zipIndexed]
    rw [List.getElem?_zip_eq_some]
    refine ⟨?_, h⟩
    have hir : i < (List.range ts.length).length := by simpa using hilen
    rw [List.getElem?_eq_getElem hir, List.getElem_range]
  simp only [assign_ids, List.getElem?_map, hz]
  rfl

theorem by_category_keys_nodup (ts : List Record) :
    ((by_category ts).map Prod.fst).Nodup :=
  groupByKey_keys_nodup catKey (zipIndexed ts)

/-- Members of a `by_category` group carry the group's category and come
from the indexed input list. -/
theorem by_category_member {ts : List Record} {c : String}
    {g : List (Nat × Record)} (hg : alookup c (by_category ts) = some g) :
    ∀ p ∈ g, p ∈ zipIndexed ts ∧ catKey p = c := by
  intro p hp
  obtain ⟨hfil, _⟩ := groupByKey_group_eq_filter hg
  rw [hfil] at hp
  have := List.mem_filter.mp hp
  exact ⟨this.1, by simpa using this.2⟩

theorem by_category_fst_functional {ts : List Record} {i : Nat}
    {x y : Record} (hx : (i, x) ∈ zipIndexed ts) (hy : (i, y) ∈ zipIndexed ts) :
    x = y := by
  have h1 := mem_zipIndexed.mp hx
  have h2 := mem_zipIndexed.mp hy
  rw [h1] at h2
  injection h2

theorem idTable_keys_nodup (ts : List Record) :
    ((idTable ts).map Prod.fst).Nodup := by
  simp only [idTable, List.map_flatMap]
  rw [List.nodup_flatMap]
  constructor
  · rintro ⟨c, g⟩ hcg
    rcases hr : lookupRange c with _ | ⟨start, e⟩
    · simp [hr]
    · simp only [hr]
      have hlen : (g.map Prod.fst).length ≤
          ((List.range g.length).map (fun k => "TECH-" ++ pad3 (start + k))).length := by
        simp
      rw [List.map_fst_zip _ _ hlen]
      have halook := alookup_of_mem_nodup (by_category_keys_nodup ts) hcg
      obtain ⟨hfil, _⟩ := groupByKey_group_eq_filter halook
      have hsub : g.Sublist (zipIndexed ts) := by
        rw [hfil]
        exact List.filter_sublist _
      have hsub2 : (g.map Prod.fst).Sublist ((zipIndexed ts).map Prod.fst) :=
        List.Sublist.map Prod.fst hsub
      have hnd : ((zipIndexed ts).map Prod.fst).Nodup := by
        simp only [zipIndexed]
        rw [List.map_fst_zip _ _ (by simp)]
        exact List.nodup_range ts.length
      exact List.Nodup.sublist hsub2 hnd
  · have hpair : (by_category ts).Pairwise (fun p q => p.1 ≠ q.1) :=
      List.pairwise_map.mp (by_category_keys_nodup ts)
    refine List.Pairwise.imp_of_mem ?_ hpair
    rintro ⟨c1, g1⟩ ⟨c2, g2⟩ h1mem h2mem hne
    intro i hi1 hi2
    simp only at hi1 hi2 hne
    have hkey1 : i ∈ g1.map Prod.fst := by
      rcases hr1 : lookupRange c1 with _ | ⟨s1, e1⟩
      · rw [hr1] at hi1
        simp at hi1
      · rw [hr1] at hi1
        rwa [List.map_fst_zip _ _ (by simp)] at hi1
    have hkey2 : i ∈ g2.map Prod.fst := by
      rcases hr2 : lookupRange c2 with _ | ⟨s2, e2⟩
      · rw [hr2] at hi2
        simp at hi2
      · rw [hr2] at hi2
        rwa [List.map_fst_zip _ _ (by simp)] at hi2
    obtain ⟨⟨i1, x⟩, hx, hxi⟩ := List.mem_map.mp hkey1
    obtain ⟨⟨i2, y⟩, hy, hyi⟩ := List.mem_map.mp hkey2
    simp only at hxi hyi
    subst hxi
    subst hyi
    have hm1 := by_category_member
      (alookup_of_mem_nodup (by_category_keys_nodup ts) h1mem) _ hx
    have hm2 := by_category_member
      (alookup_of_mem_nodup (by_category_keys_nodup ts) h2mem) _ hy
    have hxy : x = y := by_category_fst_functional hm1.1 hm2.1
    apply hne
    rw [← hm1.2, ← hm2.2, hxy]

theorem idTable_mem {ts : List Record} {c : String} {g : List (Nat × Record)}
    {start e : Nat} {k : Nat}
    (hg : alookup c (by_category ts) = some g)
    (hr : lookupRange c = some (start, e)) (hk : k < g.length) :
    (g[k].1, "TECH-" ++ pad3 (start + k)) ∈ idTable ts := by
  simp only [idTable]
  rw [List.mem_flatMap]
  refine ⟨(c, g), alookup_mem hg, ?_⟩
  simp only [hr]
  have hk1 : k < (g.map Prod.fst).length := by simpa using hk
  have hk2 : k <
      ((List.range g.length).map (fun j => "TECH-" ++ pad3 (start + j))).length := by
    simpa using hk
  have hkr : k < (List.range g.length).length := by simpa using hk
  have hkz : k < ((g.map Prod.fst).zip
      ((List.range g.length).map (fun j => "TECH-" ++ pad3 (start + j)))).length := by
    simp [hk]
  have hget : ((g.map Prod.fst).zip
      ((List.range g.length).map (fun j => "TECH-" ++ pad3 (start + j))))[k] =
      (g[k].1, "TECH-" ++ pad3 (start + k)) := by
    rw [List.getElem_zip, List.getElem_map, List.getElem_map, List.getElem_range]
  rw [← hget]
  exact List.getElem_mem hkz

theorem alookup_idTable_none {ts : List Record} {i : Nat} {t : Record}
    (h : ts[i]? = some t)
    (hnone : lookupRange (t.category.getD "unknown") = none) :
    alookup i (idTable ts) = none := by
  rw [alookup_eq_none]
  intro hmem
  rcases List.mem_map.mp hmem with ⟨⟨i1, s⟩, hin, hfst⟩
  simp only at hfst
  simp only [idTable] at hin
  rcases List.mem_flatMap.mp hin with ⟨⟨c, g⟩, hcg, helem⟩
  simp only at helem
  rcases hrr : lookupRange c with _ | ⟨start, e⟩
  · rw [hrr] at helem
    simp at helem
  · rw [hrr] at helem
    have hifst : i1 ∈ g.map Prod.fst := (List.of_mem_zip helem).1
    rcases List.mem_map.mp hifst with ⟨⟨i2, x⟩, hxg, hfx⟩
    simp only at hfx
    have hm := by_category_member
      (alookup_of_mem_nodup (by_category_keys_nodup ts) hcg) _ hxg
    have hm1 : (i, x) ∈ zipIndexed ts := by
      rw [← hfst, ← hfx]
      exact hm.1
    have hxt : x = t :=
      by_category_fst_functional hm1 (mem_zipIndexed.mpr h)
    have hc : c = t.category.getD "unknown" := by
      rw [← hm.2]
      simp [catKey, hxt]
    rw [hc, hnone] at hrr
    simp at hrr

theorem category_group_exists {ts : List Record} {i : Nat} {t : Record}
    (h : ts[i]? = some t) :
    ∃ g, alookup (t.category.getD "unknown") (by_category ts) = some g
      ∧ (i, t) ∈ g := by
  have hmemz : (i, t) ∈ zipIndexed ts := mem_zipIndexed.mpr h
  have hkey_mem : t.category.getD "unknown" ∈ (by_category ts).map Prod.fst := by
    have := groupByKey_map_fst catKey (zipIndexed ts)
    rw [show by_category ts = groupByKey catKey (zipIndexed ts) from rfl, this,
      mem_firstSeen]
    exact List.mem_map.mpr ⟨(i, t), hmemz, rfl⟩
  obtain ⟨g, hg⟩ := alookup_isSome_of_mem_keys hkey_mem
  refine ⟨g, hg, ?_⟩
  obtain ⟨hfil, _⟩ := groupByKey_group_eq_filter hg
  rw [hfil, List.mem_filter]
  exact ⟨hmemz, by simp [catKey]⟩

/-! ### Dedup structure lemmas -/

theorem selectPrimary_mem (t : Record) (ts : List Record) :
    selectPrimary t ts ∈ t :: ts := by
  induction ts generalizing t with
  | nil => simp [selectPrimary]
  | cons x ts ih =>
    simp only [selectPrimary, List.foldl_cons]
    by_cases h : authOf x > authOf t
    · rw [if_pos h]
      exact List.mem_cons_of_mem t (ih x)
    · rw [if_neg h]
      rcases List.mem_cons.mp (ih t) with h' | h'
      · rw [show (ts.foldl (fun best y =>
            if authOf y > authOf best then y else best) t) =
            selectPrimary t ts from rfl, h']
        exact List.mem_cons_self t (x :: ts)
      · exact List.mem_cons_of_mem t (List.mem_cons_of_mem x h')

theorem sig_select_or_merge {ts : List Record} {p : String × List Record}
    (hp : p ∈ groupByKey compute_signature ts) :
    compute_signature (select_or_merge p.2) = p.1 := by
  obtain ⟨c, g⟩ := p
  have halook := alookup_of_mem_nodup
    (groupByKey_keys_nodup compute_signature ts) hp
  obtain ⟨hfil, hne⟩ := groupByKey_group_eq_filter halook
  have hmem_sig : ∀ x ∈ g, compute_signature x = c := by
    intro x hx
    rw [hfil] at hx
    have := (List.mem_filter.mp hx).2
    simpa using this
  rcases g with _ | ⟨t, ts1⟩
  · exact absurd rfl hne
  · rcases ts1 with _ | ⟨t2, ts2⟩
    · simpa [select_or_merge] using hmem_sig t (by simp)
    · show compute_signature (merge_techniques (t :: t2 :: ts2)) = c
      rw [show compute_signature (merge_techniques (t :: t2 :: ts2)) =
          compute_signature (selectPrimary t (t2 :: ts2)) from rfl]
      exact hmem_sig _ (selectPrimary_mem t (t2 :: ts2))

/-- On an input whose signatures are pairwise distinct, every group is a
singleton, so deduplication is literally the identity. -/
theorem dedup_eq_self_of_nodup (ts : List Record)
    (h : (ts.map compute_signature).Nodup) :
    deduplicate_techniques ts = ts := by
  unfold deduplicate_techniques
  rw [groupByKey_of_nodup compute_signature ts h, List.map_map]
  have hcong : List.map
      ((fun p => select_or_merge p.2) ∘ fun x => (compute_signature x, [x])) ts
      = List.map id ts := List.map_congr_left (fun r _ => rfl)
  rw [hcong, List.map_id]

/-! ### Concrete records used by witnesses and counterexamples -/

/-- A Microsoft-sourced record, as in the spec's merge example. -/
def msRec : Record :=
  { name := some "A", source := some "Microsoft Official Documentation" }

/-- A research-sourced record with the same name as `msRec`. -/
def srRec : Record :=
  { name := some "A", source := some "Security Research Aggregation" }

/-- A record of the `directory-roles` category (ID range 1-99). -/
def dirRec : Record := { name := some "d", category := some "directory-roles" }

/-- A record of the `graph-permissions` category (ID range 100-199). -/
def gpRec : Record := { name := some "g", category := some "graph-permissions" }

/-- 100 `directory-roles` records followed by one `graph-permissions`
record: the 100th directory record overflows its 1-99 range. -/
def overflowInput : List Record := List.replicate 100 dirRec ++ [gpRec]

/-! ### Claim theorems -/

/-- C1 (counterexample): the claim says every output record of
`deduplicate_techniques` is stamped with a non-empty `sources` list and
`source_count = 1` for singleton groups.  On a one-record input the code
passes the record through completely unchanged: the output record still has
`sources = none` and `source_count = none`. -/
theorem C1_counterexample :
    deduplicate_techniques [{ name := some "Technique A" }] =
        [{ name := some "Technique A" }]
    ∧ (deduplicate_techniques
        [{ name := some "Technique A" }]).map Record.sources = [none]
    ∧ (deduplicate_techniques
        [{ name := some "Technique A" }]).map Record.source_count = [none] := by
  decide

/-- C1 (amended): on an input whose signatures are all distinct (every group
a singleton), `deduplicate_techniques` is literally the identity: records
are passed through unchanged and no `sources`/`source_count` bookkeeping is
stamped, so an output record carries a `sources` list only if the input
record already did. -/
theorem C1_singleton_groups_pass_through (ts : List Record)
    (h : (ts.map compute_signature).Nodup) :
    deduplicate_techniques ts = ts
    ∧ (deduplicate_techniques ts).map Record.sources =
        ts.map Record.sources := by
  have heq := dedup_eq_self_of_nodup ts h
  exact ⟨heq, by rw [heq]⟩

/-- C1 (witness): the amended claim at a concrete two-record input. -/
theorem C1_witness :
    (([{ name := some "a" }, { name := some "b" }] : List Record).map
        compute_signature).Nodup
    ∧ (deduplicate_techniques [{ name := some "a" }, { name := some "b" }] =
          [{ name := some "a" }, { name := some "b" }]
      ∧ (deduplicate_techniques
            [{ name := some "a" }, { name := some "b" }]).map Record.sources =
          ([{ name := some "a" }, { name := some "b" }] :
            List Record).map Record.sources) :=
  ⟨by decide, C1_singleton_groups_pass_through _ (by decide)⟩

/-- C2 (counterexample): with a parseable Microsoft file holding one record,
a malformed research file and no MITRE file, `load_all_sources` propagates
the `json.load` exception and returns no records at all — it does not
complete with the Microsoft records, contradicting the claim that a
malformed source is non-fatal to the load. -/
theorem C2_counterexample :
    load_all_sources
      ⟨FileState.parsed [{ name := some "a" }], FileState.malformed,
        FileState.absent⟩ = Except.error () := rfl

/-- C2 (amended): malformed JSON in any of the three source files is fatal
to the whole load — `load_all_sources` fails exactly when some present file
is malformed; only missing files are skipped (non-fatally), and when no
present file is malformed all loaded records are returned with their
`source` fields stamped. -/
theorem C2_malformed_is_fatal (d : RawDataDir) :
    (load_all_sources d = .error () ↔
      d.ms = .malformed ∨ d.research = .malformed ∨ d.mitre = .malformed)
    ∧ (d.ms ≠ .malformed → d.research ≠ .malformed → d.mitre ≠ .malformed →
        ∃ a b c, loadFile d.ms "Microsoft Official Documentation" = .ok a
          ∧ loadFile d.research "Security Research Aggregation" = .ok b
          ∧ loadFile d.mitre "MITRE ATT&CK Framework" = .ok c
          ∧ load_all_sources d = .ok (a ++ b ++ c)) := by
  obtain ⟨ms, r, mi⟩ := d
  cases ms <;> cases r <;> cases mi <;>
    simp [load_all_sources, loadFile]

/-- C2 (witness): the amended claim applied to a directory with one parsed
file and two missing files. -/
theorem C2_witness :
    ∃ a b c,
      loadFile (FileState.parsed [{ name := some "a" }])
          "Microsoft Official Documentation" = .ok a
      ∧ loadFile FileState.absent "Security Research Aggregation" = .ok b
      ∧ loadFile FileState.absent "MITRE ATT&CK Framework" = .ok c
      ∧ load_all_sources
          ⟨FileState.parsed [{ name := some "a" }], FileState.absent,
            FileState.absent⟩ = .ok (a ++ b ++ c) :=
  (C2_malformed_is_fatal
      ⟨FileState.parsed [{ name := some "a" }], FileState.absent,
        FileState.absent⟩).2
    (by decide) (by decide) (by decide)

/-- C3: for a multi-record signature group, `merge_techniques` keeps the
fields of the first group member attaining the maximal source authority
(Python's `max` semantics), overwrites its `sources` with the
name-deduplicated citation list sorted descending by authority, and sets
`source_count` to that list's length; the citation names are exactly the
group's source names, each citation carries the looked-up authority, and
all authorities are bounded by the maximum.  In particular merging the
Microsoft and research records for name "A" keeps the Microsoft fields. -/
theorem C3_merge_techniques_spec (g : List Record) (hg : 1 < g.length) :
    (∃ p, g.find? (fun x => authOf x == maxAuthority g) = some p
      ∧ p ∈ g ∧ authOf p = maxAuthority g
      ∧ merge_techniques g =
          { p with sources := some (sortSourcesDesc (collectSources g)),
                   source_count := some (collectSources g).length })
    ∧ (∀ x ∈ g, authOf x ≤ maxAuthority g)
    ∧ ((collectSources g).map SourceCite.name).Nodup
    ∧ (∀ s ∈ collectSources g, s.authority = authority_of s.name)
    ∧ (∀ n : String,
        n ∈ (collectSources g).map SourceCite.name ↔ n ∈ g.map sourceName)
    ∧ (sortSourcesDesc (collectSources g)).Pairwise
        (fun a b => b.authority ≤ a.authority)
    ∧ (sortSourcesDesc (collectSources g)).Perm (collectSources g)
    ∧ merge_techniques [msRec, srRec] =
        { msRec with
            sources := some [⟨"Microsoft Official Documentation", 100⟩,
                             ⟨"Security Research Aggregation", 50⟩],
            source_count := some 2 } := by
  rcases g with _ | ⟨t, ts⟩
  · simp at hg
  · refine ⟨⟨selectPrimary t ts, find?_maxAuthority_eq_selectPrimary t ts,
      selectPrimary_mem t ts, ?_, rfl⟩, ?_, ?_, ?_, ?_, ?_, ?_, ?_⟩
    · have hfind := find?_maxAuthority_eq_selectPrimary t ts
      have := List.find?_some hfind
      simpa using this
    · intro x hx
      exact authOf_le_maxAuthority hx
    · exact collect_nodup_names (t :: ts) [] (by simp)
    · intro s hs
      exact collect_auth_invariant (t :: ts) [] (by simp) s hs
    · intro n
      have := collect_mem_names (t :: ts) [] n
      simpa using this
    · exact sortSourcesDesc_sorted _
    · exact sortSourcesDesc_perm _
    · decide

/-- C3 (witness): the Microsoft/research merge example, obtained by applying
the general theorem at the two-record group. -/
theorem C3_witness :
    merge_techniques [msRec, srRec] =
      { msRec with
          sources := some [⟨"Microsoft Official Documentation", 100⟩,
                           ⟨"Security Research Aggregation", 50⟩],
          source_count := some 2 } :=
  (C3_merge_techniques_spec [msRec, srRec] (by decide)).2.2.2.2.2.2.2

/-- C6: `compute_signature` is a total function of the record's `name` (it
never fails): with `name` present it returns the case-folded,
whitespace-trimmed name, with `name` absent it returns `""`, and it depends
on nothing but the `name` field. -/
theorem C6_compute_signature_spec :
    (∀ (t : Record) (s : String), t.name = some s →
        compute_signature t = ⟨stripChars (lowerChars s.data)⟩)
    ∧ (∀ t : Record, t.name = none → compute_signature t = "")
    ∧ (∀ t1 t2 : Record, t1.name = t2.name →
        compute_signature t1 = compute_signature t2) := by
  refine ⟨?_, ?_, ?_⟩
  · intro t s h
    simp [compute_signature, h]
  · intro t h
    simp only [compute_signature, h, Option.getD_none]
    decide
  · intro t1 t2 h
    simp [compute_signature, h]

/-- C6 (witness): the signature of a concrete named record and of a
nameless record. -/
theorem C6_witness :
    compute_signature { name := some "  Reset User Password  " } =
      ⟨stripChars (lowerChars ("  Reset User Password  ").data)⟩
    ∧ compute_signature { name := none, source := some "x" } = "" :=
  ⟨C6_compute_signature_spec.1 _ _ rfl, C6_compute_signature_spec.2.1 _ rfl⟩

/-- C7: `deduplicate_techniques` emits exactly one record per distinct
signature, in first-seen order: the output signatures are `firstSeen` of
the input signatures, they are pairwise distinct, the output length is the
number of distinct input signatures, and it never exceeds the input
length. -/
theorem C7_dedup_order_and_length (ts : List Record) :
    (deduplicate_techniques ts).map compute_signature =
        firstSeen (ts.map compute_signature)
    ∧ ((deduplicate_techniques ts).map compute_signature).Nodup
    ∧ (deduplicate_techniques ts).length =
        (ts.map compute_signature).toFinset.card
    ∧ (deduplicate_techniques ts).length ≤ ts.length := by
  have hmap : (deduplicate_techniques ts).map compute_signature =
      (groupByKey compute_signature ts).map Prod.fst := by
    simp only [deduplicate_techniques, List.map_map]
    exact List.map_congr_left (fun p hp => sig_select_or_merge hp)
  have h1 : (deduplicate_techniques ts).map compute_signature =
      firstSeen (ts.map compute_signature) :=
    hmap.trans (groupByKey_map_fst compute_signature ts)
  have hlen : (deduplicate_techniques ts).length =
      (firstSeen (ts.map compute_signature)).length := by
    have := congrArg List.length h1
    simpa using this
  refine ⟨h1, ?_, ?_, ?_⟩
  · rw [h1]
    exact nodup_firstSeen _
  · rw [hlen, ← List.toFinset_card_of_nodup (nodup_firstSeen _)]
    congr 1
    apply Finset.ext
    intro a
    simp [List.mem_toFinset, mem_firstSeen]
  · rw [hlen]
    exact le_trans (length_firstSeen_le _) (by simp)

/-- C8: `categorize_techniques` is total, preserves length, defaults a
missing `category` to `"unknown"` and a missing `subcategory` to
`"general"`, leaves declared values and every other field unchanged, and
passes records that declare both fields through identically. -/
theorem C8_categorize_spec (ts : List Record) :
    (categorize_techniques ts).length = ts.length
    ∧ (∀ (i : Nat) (t : Record), ts[i]? = some t →
        ∃ u, (categorize_techniques ts)[i]? = some u
          ∧ u.category = some (t.category.getD "unknown")
          ∧ u.subcategory = some (t.subcategory.getD "general")
          ∧ u.name = t.name ∧ u.source = t.source
          ∧ u.description = t.description
          ∧ u.sources = t.sources ∧ u.source_count = t.source_count
          ∧ u.id = t.id)
    ∧ (∀ (i : Nat) (t : Record), ts[i]? = some t →
        t.category.isSome → t.subcategory.isSome →
        (categorize_techniques ts)[i]? = some t) := by
  refine ⟨by simp [categorize_techniques], ?_, ?_⟩
  · intro i t h
    refine ⟨{ t with category := some (t.category.getD "unknown"),
                     subcategory := some (t.subcategory.getD "general") },
      ?_, rfl, rfl, rfl, rfl, rfl, rfl, rfl, rfl⟩
    simp [categorize_techniques, List.getElem?_map, h]
  · intro i t h hc hs
    obtain ⟨n, so, de, ca, su, sr, sc, idf⟩ := t
    rcases ca with _ | c
    · simp at hc
    · rcases su with _ | s
      · simp at hs
      · simp [categorize_techniques, List.getElem?_map, h]

/-- C8 (witness): the defaults applied to a concrete record lacking both
fields, and pass-through of a fully-categorized record. -/
theorem C8_witness :
    (∃ u, (categorize_techniques [{ name := some "a" }])[0]? = some u
      ∧ u.category = some "unknown" ∧ u.subcategory = some "general")
    ∧ (categorize_techniques
        [{ name := some "b", category := some "rbac",
           subcategory := some "roles" }])[0]? =
      some { name := some "b", category := some "rbac",
             subcategory := some "roles" } := by
  constructor
  · obtain ⟨u, hu, hc, hs, _⟩ :=
      (C8_categorize_spec [{ name := some "a" }]).2.1 0 { name := some "a" } rfl
    exact ⟨u, hu, hc, hs⟩
  · exact (C8_categorize_spec _).2.2 0 _ rfl (by decide) (by decide)

/-- C9: deduplication is idempotent on already-deduplicated inputs: if all
signatures are pairwise distinct, a second `deduplicate_techniques` run
returns its input unchanged (here even exactly, with no bookkeeping
added). -/
theorem C9_dedup_idempotent (ts : List Record)
    (h : (ts.map compute_signature).Nodup) :
    deduplicate_techniques (deduplicate_techniques ts) =
      deduplicate_techniques ts := by
  have h1 := dedup_eq_self_of_nodup ts h
  rw [h1]
  exact h1

/-- C9 (witness): idempotence at a concrete singleton input. -/
theorem C9_witness :
    (([{ name := some "x" }] : List Record).map compute_signature).Nodup
    ∧ deduplicate_techniques (deduplicate_techniques [{ name := some "x" }]) =
        deduplicate_techniques [{ name := some "x" }] :=
  ⟨by decide, C9_dedup_idempotent _ (by decide)⟩

/-- C4: for a category with a declared ID range, the records of that
category's group (its accumulation order) receive ids
`TECH-` + zero-padded `range_start + k` for `k = 0, 1, 2, ...` — a strictly
increasing-by-one sequence starting exactly at the range floor — and these
id strings are pairwise distinct within the category. -/
theorem C4_assign_ids_sequential (ts : List Record) (c : String)
    (start e : Nat) (g : List (Nat × Record))
    (hr : lookupRange c = some (start, e))
    (hg : alookup c (by_category ts) = some g) :
    (∀ k, (hk : k < g.length) →
        (assign_ids ts)[(g[k]).1]? =
          some { (g[k]).2 with id := some ("TECH-" ++ pad3 (start + k)) })
    ∧ (∀ k1 k2 : Nat, k1 ≠ k2 →
        ("TECH-" ++ pad3 (start + k1)) ≠ ("TECH-" ++ pad3 (start + k2))) := by
  constructor
  · intro k hk
    have hmemg : g[k] ∈ g := List.getElem_mem hk
    have hm := by_category_member hg _ hmemg
    have hts : ts[(g[k]).1]? = some (g[k]).2 := by
      have hpair : ((g[k]).1, (g[k]).2) ∈ zipIndexed ts := by
        have : (g[k]).1 = (g[k]).1 ∧ (g[k]).2 = (g[k]).2 := ⟨rfl, rfl⟩
        exact (show ((g[k]).1, (g[k]).2) = g[k] from rfl) ▸ hm.1
      exact mem_zipIndexed.mp hpair
    have halook : alookup (g[k]).1 (idTable ts) =
        some ("TECH-" ++ pad3 (start + k)) :=
      alookup_of_mem_nodup (idTable_keys_nodup ts) (idTable_mem hg hr hk)
    have hget := assign_ids_getElem? hts
    rw [halook] at hget
    exact hget
  · intro k1 k2 hne heq
    have := tech_id_inj heq
    exact hne (by omega)

/-- C4 (witness): a one-record `directory-roles` corpus gets
`TECH-` + pad3(1) = `TECH-001` at the range floor. -/
theorem C4_witness :
    (assign_ids [dirRec])[0]? =
      some { dirRec with id := some ("TECH-" ++ pad3 1) } := by
  have h := (C4_assign_ids_sequential [dirRec] "directory-roles" 1 99
      [(0, dirRec)] (by decide) (by decide)).1 0 (by decide)
  simpa using h

set_option maxRecDepth 40000 in
/-- C5 (code bug): `assign_ids` reads each range's `end_id` but never
enforces it, so a category with more records than its range overflows into
the next range.  With 100 `directory-roles` records (range 1-99) and one
`graph-permissions` record (range floor 100), the 100th directory record
and the graph record both receive the id `TECH-100`, violating
corpus-wide uniqueness claimed by the code's own docstring
("Assign unique TECH-XXX IDs"). -/
theorem C5_duplicate_id_on_overflow :
    (assign_ids overflowInput)[99]? =
        some { dirRec with id := some "TECH-100" }
    ∧ (assign_ids overflowInput)[100]? =
        some { gpRec with id := some "TECH-100" }
    ∧ dirRec ≠ gpRec := by
  decide

/-- C10: a record whose (defaulted) category has no entry in `ID_RANGES` —
in particular every record the categorizer defaulted to `"unknown"`, which
is not a table key — is returned unchanged (no `id` assigned), its category
is reported in the warning list, and `assign_ids` still completes, while
records of table categories do receive ids. -/
theorem C10_unknown_category_skipped (ts : List Record) :
    (∀ (i : Nat) (t : Record), ts[i]? = some t →
        lookupRange (t.category.getD "unknown") = none →
        (assign_ids ts)[i]? = some t
        ∧ (t.category.getD "unknown") ∈ assign_ids_warnings ts)
    ∧ (∀ (i : Nat) (t : Record), ts[i]? = some t →
        (lookupRange (t.category.getD "unknown")).isSome →
        ∃ s, (assign_ids ts)[i]? = some { t with id := some s })
    ∧ lookupRange "unknown" = none := by
  refine ⟨?_, ?_, by decide⟩
  · intro i t h hnone
    constructor
    · have hget := assign_ids_getElem? h
      rw [alookup_idTable_none h hnone] at hget
      exact hget
    · obtain ⟨g, hg, hmem⟩ := category_group_exists h
      apply List.mem_filterMap.mpr
      refine ⟨(t.category.getD "unknown", g), alookup_mem hg, ?_⟩
      simp [hnone]
  · intro i t h hsome
    obtain ⟨⟨start, e⟩, hr⟩ := Option.isSome_iff_exists.mp hsome
    obtain ⟨g, hg, hmem⟩ := category_group_exists h
    obtain ⟨k, hk, hgk⟩ := List.getElem_of_mem hmem
    refine ⟨"TECH-" ++ pad3 (start + k), ?_⟩
    have halook : alookup (g[k]).1 (idTable ts) =
        some ("TECH-" ++ pad3 (start + k)) :=
      alookup_of_mem_nodup (idTable_keys_nodup ts) (idTable_mem hg hr hk)
    rw [hgk] at halook
    have hget := assign_ids_getElem? h
    rw [show ((i, t) : Nat × Record).1 = i from rfl] at halook
    rw [halook] at hget
    exact hget

/-- C10 (witness): a record with no category is left without an id and
produces an `unknown` warning; a `rbac`-category record beside it still
gets an id. -/
theorem C10_witness :
    ((assign_ids [{ name := some "n" }])[0]? = some { name := some "n" }
      ∧ ("unknown" : String) ∈ assign_ids_warnings [{ name := some "n" }])
    ∧ ∃ s, (assign_ids [{ name := some "n" },
          { name := some "r", category := some "rbac" }])[1]? =
        some { name := some "r", category := some "rbac", id := some s } := by
  constructor
  · exact (C10_unknown_category_skipped [{ name := some "n" }]).1 0
      { name := some "n" } rfl (by decide)
  · exact (C10_unknown_category_skipped _).2.1 1
      { name := some "r", category := some "rbac" } rfl (by decide)
